import Mathlib

/-!
Verification development for the build orchestrator in src/utils/win_build.py.

The shallow embedding below models the stateful core of the script:

* the fixed pipeline step list STATEFUL_STEPS and its index map (lines 29-30),
* the state-file location computation _state_path (lines 43-46),
* the BuildState record with its load/validate logic (lines 49-110), where the
  durable file content is modelled by the FileData type (absent, syntactically
  invalid, or a parsed JSON value) and every call of _write is logged in the
  written field (the file write itself is best effort in the source; the log
  records the sequence of snapshots the source attempts to persist),
* the stateful portion of main (lines 283-331): the clone step with its
  per-run skip override and checkout precondition, followed by the three
  uniform stateful steps.

External primitives with no arithmetic content (Path.resolve, Path.name, the
truncated sha256 digest, the filesystem and subprocess boundary) enter as
function or boolean parameters.
-/

/-- Schema version constant STATE_VERSION (line 28 of the source). -/
def STATE_VERSION : Int := 1

/-- The fixed ordered pipeline step tuple STATEFUL_STEPS (line 29). -/
def STATEFUL_STEPS : List String :=
  ["clone", "prune_binaries", "patches", "domain_substitution"]

/-- The dict STEP_TO_INDEX built by enumerate over STATEFUL_STEPS (line 30). -/
def STEP_TO_INDEX : List (String × Nat) :=
  STATEFUL_STEPS.enum.map (fun p => (p.2, p.1))

/-- Dictionary lookup in STEP_TO_INDEX: some index for a pipeline step name,
none otherwise. -/
def stepLookup (s : String) : Option Nat :=
  (STEP_TO_INDEX.find? (fun p => p.1 == s)).map Prod.snd

/-- Models the Python expression STEP_TO_INDEX.get(s, d) (line 100). -/
def stepIdxD (s : String) (d : Int) : Int :=
  match stepLookup s with
  | some i => (i : Int)
  | none => d

/-- Membership test s in STEP_TO_INDEX (line 76). -/
def stepKnown (s : String) : Bool := (stepLookup s).isSome

/-- In-memory build state: the completed_steps list of self.state together
with the log of snapshots passed to _write (each _write call in the source
serializes the whole record; we record the completed_steps list it writes). -/
structure BuildState where
  completed : List String
  written : List (List String)
deriving Repr, DecidableEq

/-- Models _write (lines 86-91): the record as it stands is serialized to the
state file; we log the completed_steps snapshot. -/
def BuildState.write (s : BuildState) : BuildState :=
  { s with written := s.written ++ [s.completed] }

/-- Models has_completed (lines 93-94). -/
def BuildState.has_completed (s : BuildState) (step : String) : Bool :=
  s.completed.contains step

/-- Models invalidate_from (lines 96-104).  The source raises KeyError when
step is not in STEP_TO_INDEX; every call site passes a member of
STATEFUL_STEPS, and for an unknown step we return the state unchanged. -/
def BuildState.invalidate_from (s : BuildState) (step : String) : BuildState :=
  match stepLookup step with
  | none => s
  | some step_index =>
      let completed := s.completed.filter
        (fun existing => stepIdxD existing (-1) < (step_index : Int))
      if completed.length ≠ s.completed.length then
        BuildState.write { s with completed := completed }
      else s

/-- Models mark_complete (lines 106-110). -/
def BuildState.mark_complete (s : BuildState) (step : String) : BuildState :=
  let s1 := s.invalidate_from step
  if s1.completed.contains step then s1
  else BuildState.write { s1 with completed := s1.completed ++ [step] }

/-- Parsed JSON value as returned by json.loads: the obj constructor is a
Python dict, so its keys are unique. -/
inductive Json where
  | null
  | bool (b : Bool)
  | num (n : Int)
  | str (s : String)
  | arr (elems : List Json)
  | obj (fields : List (String × Json))

/-- Content of the durable state file as _load observes it. -/
inductive FileData where
  | absent
  | invalid
  | json (v : Json)

/-- Models dict.get on a parsed JSON object. -/
def objLookup (fields : List (String × Json)) (k : String) : Option Json :=
  (fields.find? (fun p => p.1 == k)).map Prod.snd

/-- Models Python equality between a JSON value and an int; Python bools are
ints, so true equals 1. -/
def pyIntEq : Json → Int → Bool
  | .num n, m => n == m
  | .bool b, m => (if b then (1 : Int) else 0) == m
  | _, _ => false

/-- Lookup in a string-to-string dict given as an association list with
unique keys (the metadata dict built in main, lines 266-270). -/
def metaLookup (m : List (String × String)) (k : String) : Option String :=
  (m.find? (fun p => p.1 == k)).map Prod.snd

/-- Models Python dict equality between a parsed JSON object and a
string-to-string dict (both with unique keys): same key set and, for each
key, the JSON value is exactly the corresponding string. -/
def pyDictEq (fields : List (String × Json)) (m : List (String × String)) : Bool :=
  (m.all (fun p =>
    match objLookup fields p.1 with
    | some (.str v) => v == p.2
    | _ => false)) &&
  (fields.all (fun p => (metaLookup m p.1).isSome))

/-- Models data.get('metadata') != self.metadata (line 71), negated: a JSON
value equals a string dict only when it is an object equal to it as a dict. -/
def metaEqJson : Json → List (String × String) → Bool
  | .obj mf, m => pyDictEq mf m
  | _, _ => false

/-- Models data.get('version') != STATE_VERSION (line 71), negated; a missing
key yields None, which never equals the integer STATE_VERSION. -/
def versionMatches : Option Json → Bool
  | some j => pyIntEq j STATE_VERSION
  | none => false

/-- Models the optional metadata field comparison of line 71, negated. -/
def metaMatches : Option Json → List (String × String) → Bool
  | some j, m => metaEqJson j m
  | none, _ => false

/-- Models the list comprehension of line 76 over the parsed completed list:
string elements are kept when they are keys of STEP_TO_INDEX; list and dict
elements are unhashable, so the membership test raises TypeError in the
source (error result); other hashable non-strings are dropped. -/
def filterKnown : List Json → Except String (List String)
  | [] => .ok []
  | .arr _ :: _ => .error "TypeError"
  | .obj _ :: _ => .error "TypeError"
  | .str s :: rest =>
      (filterKnown rest).map (fun tail => if stepKnown s then s :: tail else tail)
  | _ :: rest => filterKnown rest

/-- Models BuildState.__init__ plus _load (lines 49-78): given the expected
metadata and the file content, returns the resulting completed_steps list and
the file content afterwards (removal modelled as absent), or an error for the
uncaught Python exception raised on that input.  The fresh record is empty
and tagged with the expected metadata by construction (lines 53-57). -/
def loadState (expected : List (String × String)) (file : FileData) :
    Except String (List String × FileData) :=
  match file with
  | .absent => .ok ([], .absent)
  | .invalid => .ok ([], .absent)
  | .json (.obj fields) =>
      if !(versionMatches (objLookup fields "version")) ||
         !(metaMatches (objLookup fields "metadata") expected) then
        .ok ([], .absent)
      else
        match objLookup fields "completed_steps" with
        | some (.arr elems) =>
            (filterKnown elems).map (fun steps => (steps, .json (.obj fields)))
        | _ => .ok ([], .absent)
  | .json _ => .error "AttributeError"

/-- Serialization of the metadata dict into the JSON object _write dumps. -/
def metaToJson (m : List (String × String)) : List (String × Json) :=
  m.map (fun p => (p.1, Json.str p.2))

/-- The JSON object json.dumps(self.state) writes (lines 53-57, 89). -/
def stateJson (metadata : List (String × String)) (completed : List String) : Json :=
  .obj [("version", .num STATE_VERSION),
        ("metadata", .obj (metaToJson metadata)),
        ("completed_steps", .arr (completed.map Json.str))]

/-- Durable file content after a run: the last snapshot the run wrote (in
serialized form), or the initial content when the run never wrote. -/
def fileAfter (initial : FileData) (metadata : List (String × String))
    (s : BuildState) : FileData :=
  match s.written.getLast? with
  | some c => FileData.json (stateJson metadata c)
  | none => initial

/-- Completed list a subsequent load sees, none when load raises. -/
def loadedSteps (expected : List (String × String)) (file : FileData) :
    Option (List String) :=
  match loadState expected file with
  | .ok (c, _) => some c
  | .error _ => none

/-- Models _safe_filename_stem (lines 38-40) applied to the name of the
resolved path: Python falsiness of the empty string gives "checkout". -/
def safe_filename_stem (pathName : String) : String :=
  let stem := if pathName = "" then "checkout" else pathName
  String.mk (stem.toList.map (fun c => if c.isAlphanum then c else '_'))

/-- Models _state_path (lines 43-46).  The parameters resolve, nameOf and
digest stand for Path.resolve(strict=False), Path.name and the truncated
sha256 hex digest: filesystem and cryptographic primitives outside the
arithmetic content of the function. -/
def state_path (resolve nameOf digest : String → String)
    (state_dir output : String) : String :=
  let resolved := resolve output
  state_dir ++ "/" ++ safe_filename_stem (nameOf resolved) ++ "_"
    ++ digest resolved ++ ".json"

/-- The mapping from a (target path, configuration mapping) input pair to the
state-record location, exactly as main computes it (lines 263-270): the
location is _state_path of the output path alone; the metadata handed to
BuildState does not enter the location. -/
def stateRecordLocation (resolve nameOf digest : String → String)
    (state_dir output : String) (metadata : List (String × String)) : String :=
  state_path resolve nameOf digest state_dir output

/-- The ordering invariant of the spec: whenever a pipeline step is in the
completed list, every pipeline step of smaller index is in it too. -/
def orderedInv (c : List String) : Prop :=
  ∀ s ∈ STATEFUL_STEPS, s ∈ c → ∀ t ∈ STATEFUL_STEPS,
    stepIdxD t (-1) < stepIdxD s (-1) → t ∈ c

instance orderedInv.instDecidable (c : List String) : Decidable (orderedInv c) := by
  unfold orderedInv
  infer_instance

/-- Modelled from the spec (section 4.2 InvalidateFrom): keep exactly the
completed entries whose pipeline index is strictly smaller than the index of
the given step, in their original order. -/
def invalidateFromSpec (completed : List String) (step : String) : List String :=
  completed.filter (fun x =>
    match stepLookup x, stepLookup step with
    | some i, some k => decide (i < k)
    | _, _ => false)

/-- A mutation of the record, as issued by the pipeline. -/
inductive Mut where
  | inv (step : String)
  | mark (step : String)

/-- Step name a mutation refers to. -/
def Mut.step : Mut → String
  | .inv s => s
  | .mark s => s

/-- Apply one mutation. -/
def applyMut (s : BuildState) : Mut → BuildState
  | .inv st => s.invalidate_from st
  | .mark st => s.mark_complete st

/-- Apply a sequence of mutations in order. -/
def applyMuts (s : BuildState) (ms : List Mut) : BuildState :=
  ms.foldl applyMut s

/-- Metadata dict of the shape main builds (lines 266-270). -/
def demoMeta : List (String × String) :=
  [("chromium_version", "136.0.7103.113"),
   ("patch_revision", "1"),
   ("pgo_profile", "win64")]

lemma has_completed_iff (s : BuildState) (step : String) :
    s.has_completed step = true ↔ step ∈ s.completed := by
  simp [BuildState.has_completed, List.contains]

lemma stepIdxD_of_lookup {step : String} {k : Nat} (hk : stepLookup step = some k) :
    stepIdxD step (-1) = (k : Int) := by
  simp [stepIdxD, hk]

lemma stepLookup_of_mem {step : String} (h : step ∈ STATEFUL_STEPS) :
    ∃ k, stepLookup step = some k := by
  simp only [STATEFUL_STEPS, List.mem_cons, List.not_mem_nil, or_false] at h
  rcases h with rfl | rfl | rfl | rfl
  · exact ⟨0, rfl⟩
  · exact ⟨1, rfl⟩
  · exact ⟨2, rfl⟩
  · exact ⟨3, rfl⟩

lemma known_of_mem_steps {step : String} (h : step ∈ STATEFUL_STEPS) :
    stepKnown step = true := by
  obtain ⟨k, hk⟩ := stepLookup_of_mem h
  simp [stepKnown, hk]

lemma stepIdxD_inj {a b : String} (ha : a ∈ STATEFUL_STEPS) (hb : b ∈ STATEFUL_STEPS)
    (h : stepIdxD a (-1) = stepIdxD b (-1)) : a = b := by
  simp only [STATEFUL_STEPS, List.mem_cons, List.not_mem_nil, or_false] at ha hb
  rcases ha with rfl | rfl | rfl | rfl <;> rcases hb with rfl | rfl | rfl | rfl <;>
    first
    | rfl
    | (exfalso; revert h; decide)

lemma write_completed (s : BuildState) : (BuildState.write s).completed = s.completed := rfl

lemma invalidate_from_completed (s : BuildState) {step : String} {k : Nat}
    (hk : stepLookup step = some k) :
    (s.invalidate_from step).completed
      = s.completed.filter (fun x => stepIdxD x (-1) < (k : Int)) := by
  simp only [BuildState.invalidate_from, hk]
  split
  · rfl
  · next h =>
      have hlen : (s.completed.filter
          (fun x => stepIdxD x (-1) < (k : Int))).length = s.completed.length := by
        omega
      exact ((List.filter_sublist s.completed).eq_of_length hlen).symm

lemma mem_invalidate_iff (s : BuildState) {step : String} {k : Nat}
    (hk : stepLookup step = some k) {x : String} :
    x ∈ (s.invalidate_from step).completed
      ↔ x ∈ s.completed ∧ stepIdxD x (-1) < (k : Int) := by
  rw [invalidate_from_completed s hk]
  simp [List.mem_filter]

lemma mark_complete_completed (s : BuildState) {step : String} {k : Nat}
    (hk : stepLookup step = some k) :
    (s.mark_complete step).completed
      = s.completed.filter (fun x => stepIdxD x (-1) < (k : Int)) ++ [step] := by
  have h1 := invalidate_from_completed s hk
  have hnot : ¬ step ∈ (s.invalidate_from step).completed := by
    rw [h1]
    intro hmem
    have hp := List.of_mem_filter hmem
    rw [stepIdxD_of_lookup hk] at hp
    simp at hp
  have hc : (s.invalidate_from step).completed.contains step = false := by
    have := (has_completed_iff (s.invalidate_from step) step)
    simp only [BuildState.has_completed] at this
    rcases Bool.eq_false_or_eq_true ((s.invalidate_from step).completed.contains step)
      with h | h
    · exact absurd (this.mp h) hnot
    · exact h
  simp only [BuildState.mark_complete, hc, Bool.false_eq_true, if_false]
  rw [write_completed]
  simp only [h1]

lemma mem_mark_iff (s : BuildState) {step : String} {k : Nat}
    (hk : stepLookup step = some k) {x : String} :
    x ∈ (s.mark_complete step).completed
      ↔ (x ∈ s.completed ∧ stepIdxD x (-1) < (k : Int)) ∨ x = step := by
  rw [mark_complete_completed s hk]
  simp [List.mem_filter, List.mem_append]

lemma mem_invalidate_sub (s : BuildState) (step : String) {x : String}
    (hx : x ∈ (s.invalidate_from step).completed) : x ∈ s.completed := by
  unfold BuildState.invalidate_from at hx
  rcases h : stepLookup step with _ | k
  · rw [h] at hx; exact hx
  · rw [h] at hx
    dsimp only at hx
    split at hx
    · exact (List.mem_filter.mp hx).1
    · exact hx

lemma mem_mark_sub (s : BuildState) (step : String) {x : String}
    (hx : x ∈ (s.mark_complete step).completed) : x ∈ s.completed ∨ x = step := by
  unfold BuildState.mark_complete at hx
  dsimp only at hx
  split at hx
  · exact Or.inl (mem_invalidate_sub s step hx)
  · rw [write_completed] at hx
    rcases List.mem_append.mp hx with h | h
    · exact Or.inl (mem_invalidate_sub s step h)
    · exact Or.inr (List.mem_singleton.mp h)

lemma invalidate_from_written_mono (s : BuildState) (step : String) :
    s.written.length ≤ (s.invalidate_from step).written.length := by
  unfold BuildState.invalidate_from
  rcases h : stepLookup step with _ | k
  · exact Nat.le_refl _
  · dsimp only
    split
    · simp [BuildState.write]
    · exact Nat.le_refl _

lemma invalidate_from_of_written_eq (s : BuildState) (step : String)
    (h : (s.invalidate_from step).written = s.written) :
    s.invalidate_from step = s := by
  unfold BuildState.invalidate_from at h ⊢
  rcases hk : stepLookup step with _ | k
  · rfl
  · rw [hk] at h
    dsimp only at h ⊢
    split at h
    · exfalso
      simp only [BuildState.write, List.length_append] at h
      have := congrArg List.length h
      simp [List.length_append] at this
    · next hlen =>
        simp only [if_neg hlen]

lemma mark_complete_of_written_eq (s : BuildState) (step : String)
    (h : (s.mark_complete step).written = s.written) :
    s.mark_complete step = s := by
  unfold BuildState.mark_complete at h ⊢
  dsimp only at h ⊢
  split at h
  · next hc =>
      rw [if_pos hc]
      exact invalidate_from_of_written_eq s step h
  · exfalso
    have hmono := invalidate_from_written_mono s step
    simp only [BuildState.write, List.length_append] at h
    have := congrArg List.length h
    simp only [List.length_append, List.length_cons, List.length_nil] at this
    omega

/-- Last-written snapshot agrees with the in-memory record (or nothing was
written yet). -/
def wlast (s : BuildState) : Prop :=
  s.written = [] ∨ s.written.getLast? = some s.completed

lemma wlast_write (s : BuildState) : wlast (BuildState.write s) := by
  right
  simp [BuildState.write, List.getLast?_concat]

lemma wlast_invalidate_from (s : BuildState) (step : String) (h : wlast s) :
    wlast (s.invalidate_from step) := by
  unfold BuildState.invalidate_from
  rcases hk : stepLookup step with _ | k
  · exact h
  · dsimp only
    split
    · exact wlast_write _
    · exact h

lemma wlast_mark_complete (s : BuildState) (step : String) (h : wlast s) :
    wlast (s.mark_complete step) := by
  unfold BuildState.mark_complete
  dsimp only
  split
  · exact wlast_invalidate_from s step h
  · exact wlast_write _

lemma filterKnown_known {elems : List Json} {steps : List String}
    (h : filterKnown elems = .ok steps) : ∀ x ∈ steps, stepKnown x = true := by
  induction elems generalizing steps with
  | nil =>
      simp only [filterKnown] at h
      cases h
      intro x hx
      exact absurd hx (List.not_mem_nil x)
  | cons j rest ih =>
      cases j with
      | arr es => simp [filterKnown] at h
      | obj fs => simp [filterKnown] at h
      | str s =>
          simp only [filterKnown] at h
          rcases hr : filterKnown rest with e | tail
          · rw [hr] at h; simp [Except.map] at h
          · rw [hr] at h
            simp only [Except.map] at h
            cases h
            intro x hx
            by_cases hs : stepKnown s = true
            · rw [if_pos hs] at hx
              rcases List.mem_cons.mp hx with rfl | hx'
              · exact hs
              · exact ih hr x hx'
            · rw [if_neg hs] at hx
              exact ih hr x hx
      | null => simp only [filterKnown] at h; exact ih h
      | bool b => simp only [filterKnown] at h; exact ih h
      | num n => simp only [filterKnown] at h; exact ih h

lemma loadState_known {expected : List (String × String)} {file : FileData}
    {c : List String} {f : FileData}
    (h : loadState expected file = .ok (c, f)) : ∀ x ∈ c, stepKnown x = true := by
  cases file with
  | absent =>
      simp only [loadState] at h
      cases h
      intro x hx
      exact absurd hx (List.not_mem_nil x)
  | invalid =>
      simp only [loadState] at h
      cases h
      intro x hx
      exact absurd hx (List.not_mem_nil x)
  | json v =>
      cases v with
      | obj fields =>
          simp only [loadState] at h
          split at h
          · cases h
            intro x hx
            exact absurd hx (List.not_mem_nil x)
          · split at h
            · next elems heq =>
                rcases hr : filterKnown elems with e | steps
                · rw [hr] at h; simp [Except.map] at h
                · rw [hr] at h
                  simp only [Except.map] at h
                  cases h
                  exact filterKnown_known hr
            · cases h
              intro x hx
              exact absurd hx (List.not_mem_nil x)
      | null => simp [loadState] at h
      | bool b => simp [loadState] at h
      | num n => simp [loadState] at h
      | str s => simp [loadState] at h
      | arr es => simp [loadState] at h

lemma invalidate_from_eq (s : BuildState) {step : String} {k : Nat}
    (hk : stepLookup step = some k) :
    s.invalidate_from step =
      if (s.completed.filter (fun x => stepIdxD x (-1) < (k : Int))).length
          ≠ s.completed.length then
        ⟨s.completed.filter (fun x => stepIdxD x (-1) < (k : Int)),
         s.written ++ [s.completed.filter (fun x => stepIdxD x (-1) < (k : Int))]⟩
      else s := by
  unfold BuildState.invalidate_from
  rw [hk]
  rfl

/-- C8: invalidate_from removes from completed-steps exactly the entries
whose pipeline index is greater than or equal to the index of the given step,
keeping the strictly earlier ones in their original order, and it persists
the record if and only if this changed the sequence. -/
theorem invalidate_from_matches_reference (c : List String) (step : String)
    (hstep : step ∈ STATEFUL_STEPS) (hc : ∀ x ∈ c, stepKnown x = true) :
    (BuildState.invalidate_from ⟨c, []⟩ step).completed = invalidateFromSpec c step ∧
    ((BuildState.invalidate_from ⟨c, []⟩ step).written ≠ [] ↔
      (BuildState.invalidate_from ⟨c, []⟩ step).completed ≠ c) := by
  obtain ⟨k, hk⟩ := stepLookup_of_mem hstep
  constructor
  · rw [invalidate_from_completed _ hk]
    unfold invalidateFromSpec
    apply List.filter_congr
    intro x hx
    obtain ⟨i, hi⟩ := Option.isSome_iff_exists.mp (hc x hx)
    simp [stepIdxD, hi, hk]
  · rw [invalidate_from_eq ⟨c, []⟩ hk]
    split
    · next hlen =>
        exact iff_of_true (by simp) (fun hEq => hlen (congrArg List.length hEq))
    · exact iff_of_false (fun h => h rfl) (fun h => h rfl)

/-- Witness for C8 at a concrete record and step. -/
theorem invalidate_from_matches_reference_witness :
    (BuildState.invalidate_from
        ⟨["clone", "prune_binaries", "patches", "domain_substitution"], []⟩
        "patches").completed
      = invalidateFromSpec
          ["clone", "prune_binaries", "patches", "domain_substitution"] "patches" :=
  (invalidate_from_matches_reference
    ["clone", "prune_binaries", "patches", "domain_substitution"] "patches"
    (by decide) (by decide)).1

/-- C6: marking the step at pipeline index i complete, on a record that also
contains the step at index i+1, yields exactly the previously completed steps
of index smaller than i followed by the step at index i; the step at index
i+1 is removed. -/
theorem mark_complete_cascade (c : List String) (s t : String) (i : Nat)
    (hs : stepLookup s = some i) (ht : stepLookup t = some (i + 1))
    (hc : ∀ x ∈ c, stepKnown x = true) (hsc : s ∈ c) (htc : t ∈ c) :
    (BuildState.mark_complete ⟨c, []⟩ s).completed
      = c.filter (fun x => stepIdxD x (-1) < (i : Int)) ++ [s] ∧
    t ∉ (BuildState.mark_complete ⟨c, []⟩ s).completed ∧
    s ∈ (BuildState.mark_complete ⟨c, []⟩ s).completed := by
  refine ⟨mark_complete_completed ⟨c, []⟩ hs, ?_, ?_⟩
  · intro hmem
    rcases (mem_mark_iff ⟨c, []⟩ hs).mp hmem with ⟨_, hlt⟩ | rfl
    · rw [stepIdxD_of_lookup ht] at hlt
      omega
    · have := hs.symm.trans ht
      injection this with h
      omega
  · exact (mem_mark_iff ⟨c, []⟩ hs).mpr (Or.inr rfl)

/-- Witness for C6: record [clone, prune_binaries, patches], marking
prune_binaries (index 1) keeps clone, appends prune_binaries, drops
patches. -/
theorem mark_complete_cascade_witness :
    (BuildState.mark_complete ⟨["clone", "prune_binaries", "patches"], []⟩
        "prune_binaries").completed
      = ["clone", "prune_binaries", "patches"].filter
          (fun x => stepIdxD x (-1) < (1 : Int)) ++ ["prune_binaries"] ∧
    "patches" ∉ (BuildState.mark_complete
        ⟨["clone", "prune_binaries", "patches"], []⟩ "prune_binaries").completed ∧
    "prune_binaries" ∈ (BuildState.mark_complete
        ⟨["clone", "prune_binaries", "patches"], []⟩ "prune_binaries").completed :=
  mark_complete_cascade ["clone", "prune_binaries", "patches"]
    "prune_binaries" "patches" 1 rfl rfl (by decide) (by decide) (by decide)

/-- C7: a persisted record whose stored schema version differs from
STATE_VERSION, or whose stored configuration snapshot differs from the
expected configuration, is deleted from storage and a fresh empty record is
returned instead of the stored completed-steps. -/
theorem load_resets_on_drift (expected : List (String × String)) (v mj cs : Json)
    (h : pyIntEq v STATE_VERSION = false ∨ metaEqJson mj expected = false) :
    loadState expected (.json (.obj
      [("version", v), ("metadata", mj), ("completed_steps", cs)]))
      = .ok ([], .absent) := by
  rcases h with h | h <;>
    simp [loadState, objLookup, versionMatches, metaMatches, h]

/-- Witness for C7: schema version 2 with matching metadata is discarded. -/
theorem load_resets_on_drift_witness :
    loadState demoMeta (.json (.obj
      [("version", .num 2), ("metadata", .obj (metaToJson demoMeta)),
       ("completed_steps", .arr [.str "clone"])]))
      = .ok ([], .absent) :=
  load_resets_on_drift demoMeta (.num 2) (.obj (metaToJson demoMeta))
    (.arr [.str "clone"]) (Or.inl rfl)

/-- C2 evidence: a state file that is not valid JSON is deleted and yields a
fresh empty record (warning path, lines 67-70), but a state file holding
valid JSON whose top level is not an object makes _load raise an uncaught
AttributeError at data.get (line 71), contradicting the claim that any
invalid structured content is recovered from. -/
theorem load_corrupt_behavior :
    loadState demoMeta .invalid = .ok ([], .absent) ∧
    loadState demoMeta (.json (.arr [])) = .error "AttributeError" :=
  ⟨rfl, rfl⟩

/-- C3 counterexample: the state-record location computed by main depends
only on the output path; two distinct configuration mappings for the same
target share the same record location. -/
theorem state_path_ignores_config :
    stateRecordLocation id id id "state" "chromium" [("pgo_profile", "win64")]
      = stateRecordLocation id id id "state" "chromium" [("pgo_profile", "win32")] ∧
    ([("pgo_profile", "win64")] : List (String × String))
      ≠ [("pgo_profile", "win32")] :=
  ⟨rfl, by decide⟩

/-- C3 amended: the record location binds only the canonical target path
(outputs with equal resolved paths map to the same location, whatever the
configurations), and configuration binding is enforced at load time instead:
a record persisted under one configuration is deleted and replaced by a
fresh empty record when loaded expecting a differing configuration. -/
theorem state_path_binds_target_and_load_checks_config
    (resolve nameOf digest : String → String) (state_dir o1 o2 : String)
    (m1 m2 : List (String × String)) (c : List String)
    (hres : resolve o1 = resolve o2) :
    stateRecordLocation resolve nameOf digest state_dir o1 m1
      = stateRecordLocation resolve nameOf digest state_dir o2 m2 ∧
    (pyDictEq (metaToJson m1) m2 = false →
      loadState m2 (.json (stateJson m1 c)) = .ok ([], .absent)) := by
  constructor
  · simp [stateRecordLocation, state_path, hres]
  · intro hneq
    simp [stateJson, loadState, objLookup, versionMatches, metaMatches,
      metaEqJson, hneq]

/-- Witness for C3 amended: same target, different pgo profile: same
location, and the persisted record for one profile is not reused when loaded
expecting the other. -/
theorem state_path_amended_witness :
    stateRecordLocation id id id "state" "chromium" [("pgo_profile", "win64")]
      = stateRecordLocation id id id "state" "chromium" [("pgo_profile", "win32")] ∧
    loadState [("pgo_profile", "win32")]
      (.json (stateJson [("pgo_profile", "win64")] ["clone"]))
      = .ok ([], .absent) := by
  have h := state_path_binds_target_and_load_checks_config id id id "state"
    "chromium" "chromium" [("pgo_profile", "win64")] [("pgo_profile", "win32")]
    ["clone"] rfl
  exact ⟨h.1, h.2 rfl⟩

lemma applyMuts_known (s : BuildState) (ms : List Mut)
    (h0 : ∀ x ∈ s.completed, stepKnown x = true)
    (hms : ∀ m ∈ ms, Mut.step m ∈ STATEFUL_STEPS) :
    ∀ x ∈ (applyMuts s ms).completed, stepKnown x = true := by
  induction ms generalizing s with
  | nil => simpa [applyMuts]
  | cons m rest ih =>
      simp only [applyMuts, List.foldl_cons]
      apply ih (applyMut s m)
      · intro x hx
        cases m with
        | inv st => exact h0 x (mem_invalidate_sub s st hx)
        | mark st =>
            rcases mem_mark_sub s st hx with h | rfl
            · exact h0 x h
            · exact known_of_mem_steps (hms (Mut.mark x) (List.mem_cons_self _ _))
      · intro m' hm'
        exact hms m' (List.mem_cons_of_mem _ hm')

/-- C10: a record produced by a successful load, after any sequence of
invalidate_from and mark_complete calls whose step arguments are pipeline
steps, contains only pipeline step names. -/
theorem completed_steps_always_known (expected : List (String × String))
    (file : FileData) (c : List String) (f : FileData) (ms : List Mut)
    (hload : loadState expected file = .ok (c, f))
    (hms : ∀ m ∈ ms, Mut.step m ∈ STATEFUL_STEPS) :
    ∀ x ∈ (applyMuts ⟨c, []⟩ ms).completed, stepKnown x = true :=
  applyMuts_known ⟨c, []⟩ ms (loadState_known hload) hms

/-- Witness for C10: load drops the unknown entry bogus, and marking
prune_binaries keeps the record inside the pipeline step set. -/
theorem completed_steps_always_known_witness : stepKnown "prune_binaries" = true :=
  completed_steps_always_known [] (.json (stateJson [] ["clone", "bogus"]))
    ["clone"] (.json (stateJson [] ["clone", "bogus"]))
    [Mut.mark "prune_binaries"] rfl (by decide) "prune_binaries" (by decide)

/-- Fatal outcomes of the stateful portion of main: a CalledProcessError
propagated out of run_cmd (check=True, lines 33-35), the SystemExit of line
290 and the SystemExit of line 296. -/
inductive Halt where
  | cmdFailed (step : String)
  | checkoutMissingAfterClone
  | checkoutNotFound
deriving Repr, DecidableEq

/-- Accumulator while main walks the stateful steps: build state, the list
of step executors invoked so far (in order), and the pending fatal outcome
if one occurred. -/
structure StepAcc where
  st : BuildState
  calls : List String
  halt : Option Halt
deriving Repr, DecidableEq

/-- One of the three uniform stateful steps of main (prune_binaries lines
299-305, patches lines 307-317, domain_substitution lines 319-331): skip
when already completed, otherwise invalidate from this step, invoke the
executor, and mark complete on success; executor failure halts.  The exec
parameter tells whether the delegated subprocess succeeds. -/
def runStep (exec : String → Bool) (step : String) (a : StepAcc) : StepAcc :=
  match a.halt with
  | some _ => a
  | none =>
      if a.st.has_completed step then a
      else
        if exec step then
          ⟨(a.st.invalidate_from step).mark_complete step, a.calls ++ [step], none⟩
        else
          ⟨a.st.invalidate_from step, a.calls ++ [step], some (.cmdFailed step)⟩

/-- The clone step of main (lines 283-293) together with the resulting truth
of checkout_git.exists(): with --skip-clone the step is bypassed entirely;
otherwise it runs unless already completed with the checkout present.
gitAfterClone tells whether the checkout exists after a successful clone.py
run (the source re-checks it on line 289 and raises SystemExit when it is
missing). -/
def clonePhase (skipClone checkout0 gitAfterClone : Bool) (exec : String → Bool)
    (st0 : BuildState) : StepAcc × Bool :=
  if skipClone then (⟨st0, [], none⟩, checkout0)
  else if !(st0.has_completed "clone") || !checkout0 then
    if exec "clone" then
      if gitAfterClone then
        (⟨(st0.invalidate_from "clone").mark_complete "clone", ["clone"], none⟩, true)
      else
        (⟨st0.invalidate_from "clone", ["clone"], some .checkoutMissingAfterClone⟩,
          false)
    else
      (⟨st0.invalidate_from "clone", ["clone"], some (.cmdFailed "clone")⟩, checkout0)
  else (⟨st0, [], none⟩, checkout0)

/-- The check of lines 295-296: after the clone phase the checkout must
exist, otherwise SystemExit. -/
def checkoutGate (checkout : Bool) (a : StepAcc) : StepAcc :=
  match a.halt with
  | some _ => a
  | none => if checkout then a else ⟨a.st, a.calls, some .checkoutNotFound⟩

/-- Outcome of one invocation of the stateful portion of main. -/
structure RunResult where
  state : BuildState
  calls : List String
  halt : Option Halt
  checkout : Bool
deriving Repr, DecidableEq

/-- The stateful portion of main (lines 283-331): clone phase, the checkout
existence gate, then the three uniform steps in pipeline order.  The build
phase that follows in the source (GN and ninja, lines 333-361) neither
consults nor mutates BuildState and sits outside the stateful pipeline. -/
def runPipeline (skipClone checkout0 gitAfterClone : Bool) (exec : String → Bool)
    (st0 : BuildState) : RunResult :=
  let p := clonePhase skipClone checkout0 gitAfterClone exec st0
  let a := runStep exec "domain_substitution"
    (runStep exec "patches"
      (runStep exec "prune_binaries" (checkoutGate p.2 p.1)))
  ⟨a.st, a.calls, a.halt, p.2⟩

lemma mem_of_lookup {step : String} {k : Nat} (hk : stepLookup step = some k) :
    step ∈ STATEFUL_STEPS := by
  unfold stepLookup at hk
  rcases hf : STEP_TO_INDEX.find? (fun p => p.1 == step) with _ | p
  · rw [hf] at hk; simp at hk
  · have hp := List.find?_some hf
    have hpm := List.mem_of_find?_eq_some hf
    have hps : p.1 = step := by simpa using hp
    rw [← hps]
    rw [show STEP_TO_INDEX
        = [("clone", 0), ("prune_binaries", 1), ("patches", 2),
           ("domain_substitution", 3)] from rfl] at hpm
    simp only [List.mem_cons, List.not_mem_nil, or_false] at hpm
    rcases hpm with rfl | rfl | rfl | rfl <;> decide

lemma lt_succ_cases {t : String} (htSS : t ∈ STATEFUL_STEPS) {step : String} {k : Nat}
    (hk : stepLookup step = some k)
    (hlt : stepIdxD t (-1) < (k : Int) + 1) :
    stepIdxD t (-1) < (k : Int) ∨ t = step := by
  rcases lt_or_ge (stepIdxD t (-1)) (k : Int) with h | h
  · exact Or.inl h
  · right
    have he : stepIdxD t (-1) = (k : Int) := by omega
    exact stepIdxD_inj htSS (mem_of_lookup hk)
      (he.trans (stepIdxD_of_lookup hk).symm)

lemma orderedInv_filter (c : List String) (k : Nat) (hinv : orderedInv c) :
    orderedInv (c.filter (fun x => stepIdxD x (-1) < (k : Int))) := by
  intro x hxSS hxc t htSS hlt
  rw [List.mem_filter] at hxc ⊢
  obtain ⟨hxc, hxlt⟩ := hxc
  simp only [decide_eq_true_eq] at hxlt ⊢
  exact ⟨hinv x hxSS hxc t htSS hlt, lt_trans hlt hxlt⟩

lemma orderedInv_invalidate (s : BuildState) (step : String)
    (hinv : orderedInv s.completed) :
    orderedInv (s.invalidate_from step).completed := by
  rcases hk : stepLookup step with _ | k
  · unfold BuildState.invalidate_from
    rw [hk]
    exact hinv
  · rw [invalidate_from_completed s hk]
    exact orderedInv_filter _ _ hinv

lemma orderedInv_mark (s : BuildState) {step : String} {k : Nat}
    (hk : stepLookup step = some k)
    (hinv : orderedInv s.completed)
    (hpre : ∀ t ∈ STATEFUL_STEPS, stepIdxD t (-1) < (k : Int) → t ∈ s.completed) :
    orderedInv (s.mark_complete step).completed := by
  intro x hxSS hxc t htSS hlt
  rw [mem_mark_iff s hk] at hxc ⊢
  rcases hxc with ⟨hxc, hxlt⟩ | rfl
  · exact Or.inl ⟨hinv x hxSS hxc t htSS hlt, lt_trans hlt hxlt⟩
  · rw [stepIdxD_of_lookup hk] at hlt
    exact Or.inl ⟨hpre t htSS hlt, hlt⟩

lemma runStep_ordered (exec : String → Bool) {step : String} {k : Nat}
    (hk : stepLookup step = some k) (a : StepAcc)
    (hinv : orderedInv a.st.completed)
    (hpre : a.halt = none →
      ∀ t ∈ STATEFUL_STEPS, stepIdxD t (-1) < (k : Int) → t ∈ a.st.completed) :
    orderedInv (runStep exec step a).st.completed ∧
    ((runStep exec step a).halt = none →
      a.halt = none ∧
      step ∈ (runStep exec step a).st.completed ∧
      ∀ t ∈ STATEFUL_STEPS, stepIdxD t (-1) < (k : Int) →
        t ∈ (runStep exec step a).st.completed) := by
  obtain ⟨ast, acalls, ahalt⟩ := a
  unfold runStep
  cases ahalt with
  | some h => exact ⟨hinv, fun hcontra => by cases hcontra⟩
  | none =>
    dsimp only at hinv hpre ⊢
    by_cases hc : ast.has_completed step = true
    · rw [if_pos hc]
      exact ⟨hinv, fun _ => ⟨rfl, (has_completed_iff ast step).mp hc, hpre rfl⟩⟩
    · rw [if_neg hc]
      by_cases hx : exec step = true
      · rw [if_pos hx]
        have hpre' : ∀ t ∈ STATEFUL_STEPS, stepIdxD t (-1) < (k : Int) →
            t ∈ (ast.invalidate_from step).completed := fun t htSS hlt =>
          (mem_invalidate_iff ast hk).mpr ⟨hpre rfl t htSS hlt, hlt⟩
        refine ⟨orderedInv_mark _ hk (orderedInv_invalidate _ _ hinv) hpre', fun _ => ?_⟩
        refine ⟨rfl, (mem_mark_iff _ hk).mpr (Or.inr rfl), fun t htSS hlt => ?_⟩
        exact (mem_mark_iff _ hk).mpr (Or.inl ⟨hpre' t htSS hlt, hlt⟩)
      · rw [if_neg hx]
        exact ⟨orderedInv_invalidate _ _ hinv, fun hcontra => by cases hcontra⟩

lemma checkoutGate_st (checkout : Bool) (a : StepAcc) :
    (checkoutGate checkout a).st = a.st := by
  obtain ⟨ast, acalls, ahalt⟩ := a
  cases ahalt with
  | some h => rfl
  | none =>
      unfold checkoutGate
      dsimp only
      split <;> rfl

lemma checkoutGate_calls (checkout : Bool) (a : StepAcc) :
    (checkoutGate checkout a).calls = a.calls := by
  obtain ⟨ast, acalls, ahalt⟩ := a
  cases ahalt with
  | some h => rfl
  | none =>
      unfold checkoutGate
      dsimp only
      split <;> rfl

lemma checkoutGate_halt_none {checkout : Bool} {a : StepAcc}
    (h : (checkoutGate checkout a).halt = none) :
    a.halt = none ∧ checkout = true := by
  obtain ⟨ast, acalls, ahalt⟩ := a
  cases ahalt with
  | some hh => exact absurd h (by simp [checkoutGate])
  | none =>
      unfold checkoutGate at h
      dsimp only at h
      constructor
      · rfl
      · by_contra hco
        rw [if_neg hco] at h
        cases h

lemma clonePhase_ordered (checkout0 gitAfterClone : Bool) (exec : String → Bool)
    (st0 : BuildState) (hinv : orderedInv st0.completed) :
    orderedInv (clonePhase false checkout0 gitAfterClone exec st0).1.st.completed ∧
    ((clonePhase false checkout0 gitAfterClone exec st0).1.halt = none →
      "clone" ∈ (clonePhase false checkout0 gitAfterClone exec st0).1.st.completed) := by
  unfold clonePhase
  rw [if_neg (by simp)]
  by_cases hc : (!(st0.has_completed "clone") || !checkout0) = true
  · rw [if_pos hc]
    by_cases hx : exec "clone" = true
    · rw [if_pos hx]
      cases gitAfterClone with
      | true =>
          rw [if_pos rfl]
          refine ⟨orderedInv_mark _ (show stepLookup "clone" = some 0 from rfl)
            (orderedInv_invalidate _ _ hinv) ?_, fun _ => ?_⟩
          · intro t htSS hlt
            exfalso
            revert hlt
            simp only [STATEFUL_STEPS, List.mem_cons, List.not_mem_nil, or_false] at htSS
            rcases htSS with rfl | rfl | rfl | rfl <;> decide
          · exact (mem_mark_iff _ (show stepLookup "clone" = some 0 from rfl)).mpr
              (Or.inr rfl)
      | false =>
          rw [if_neg (by simp)]
          exact ⟨orderedInv_invalidate _ _ hinv, fun hcontra => by cases hcontra⟩
    · rw [if_neg hx]
      exact ⟨orderedInv_invalidate _ _ hinv, fun hcontra => by cases hcontra⟩
  · rw [if_neg hc]
    refine ⟨hinv, fun _ => ?_⟩
    simp only [Bool.not_eq_true, Bool.or_eq_false_iff, Bool.not_eq_false,
      Bool.not_eq_true', Bool.not_eq_false'] at hc
    exact (has_completed_iff st0 "clone").mp hc.1

/-- C1 counterexample: a run with the skip-clone override, starting from an
empty record with the checkout present and every executor succeeding, marks
the three later steps complete without clone; the resulting (and persisted)
record has the step of index 1 without the step of index 0, so the mutation
calls made by such a pipeline run do not maintain the ordering invariant. -/
theorem skip_clone_breaks_ordering :
    (runPipeline true true true (fun _ => true) ⟨[], []⟩).state.completed
      = ["prune_binaries", "patches", "domain_substitution"] ∧
    ¬ orderedInv (runPipeline true true true (fun _ => true) ⟨[], []⟩).state.completed := by
  constructor
  · decide
  · decide

/-- C1 amended: for a pipeline run that does not use the skip-clone override,
starting from a record satisfying the ordering invariant, the record after
all invalidate_from and mark_complete calls of the run still satisfies the
invariant, whatever the checkout state and the step outcomes. -/
theorem ordering_invariant_preserved_without_skip
    (checkout0 gitAfterClone : Bool) (exec : String → Bool) (st0 : BuildState)
    (h0 : orderedInv st0.completed) :
    orderedInv (runPipeline false checkout0 gitAfterClone exec st0).state.completed := by
  obtain ⟨hinv1, hmem1⟩ := clonePhase_ordered checkout0 gitAfterClone exec st0 h0
  set p := clonePhase false checkout0 gitAfterClone exec st0 with hp
  set g := checkoutGate p.2 p.1 with hg
  have hginv : orderedInv g.st.completed := by
    rw [hg, checkoutGate_st]
    exact hinv1
  have hgpre : g.halt = none →
      ∀ t ∈ STATEFUL_STEPS, stepIdxD t (-1) < ((1 : Nat) : Int) →
        t ∈ g.st.completed := by
    intro hnone t htSS hlt
    obtain ⟨hph, _⟩ := checkoutGate_halt_none (hg ▸ hnone)
    have hteq : t = "clone" := by
      simp only [STATEFUL_STEPS, List.mem_cons, List.not_mem_nil, or_false] at htSS
      rcases htSS with rfl | rfl | rfl | rfl <;> revert hlt <;> decide
    rw [hteq, hg, checkoutGate_st]
    exact hmem1 hph
  obtain ⟨hinv2, h2⟩ := runStep_ordered exec
    (show stepLookup "prune_binaries" = some 1 from rfl) g hginv hgpre
  have hpre3 : (runStep exec "prune_binaries" g).halt = none →
      ∀ t ∈ STATEFUL_STEPS, stepIdxD t (-1) < ((2 : Nat) : Int) →
        t ∈ (runStep exec "prune_binaries" g).st.completed := by
    intro hnone t htSS hlt
    obtain ⟨_, hpmem, hall⟩ := h2 hnone
    rcases lt_succ_cases htSS (show stepLookup "prune_binaries" = some 1 from rfl)
      (by push_cast at hlt ⊢; omega) with h | rfl
    · exact hall t htSS h
    · exact hpmem
  obtain ⟨hinv3, h3⟩ := runStep_ordered exec
    (show stepLookup "patches" = some 2 from rfl)
    (runStep exec "prune_binaries" g) hinv2 hpre3
  have hpre4 : (runStep exec "patches" (runStep exec "prune_binaries" g)).halt = none →
      ∀ t ∈ STATEFUL_STEPS, stepIdxD t (-1) < ((3 : Nat) : Int) →
        t ∈ (runStep exec "patches" (runStep exec "prune_binaries" g)).st.completed := by
    intro hnone t htSS hlt
    obtain ⟨_, hpmem, hall⟩ := h3 hnone
    rcases lt_succ_cases htSS (show stepLookup "patches" = some 2 from rfl)
      (by push_cast at hlt ⊢; omega) with h | rfl
    · exact hall t htSS h
    · exact hpmem
  obtain ⟨hinv4, _⟩ := runStep_ordered exec
    (show stepLookup "domain_substitution" = some 3 from rfl)
    (runStep exec "patches" (runStep exec "prune_binaries" g)) hinv3 hpre4
  exact hinv4

/-- Witness for C1 amended: a non-skip all-success run from the record
containing clone alone keeps the invariant. -/
theorem ordering_invariant_preserved_witness :
    orderedInv (runPipeline false true true (fun _ => true)
      ⟨["clone"], []⟩).state.completed :=
  ordering_invariant_preserved_without_skip true true (fun _ => true)
    ⟨["clone"], []⟩ (by decide)

lemma runStep_calls_mem (exec : String → Bool) (step : String) (a : StepAcc)
    {x : String} (hx : x ∈ (runStep exec step a).calls) :
    x ∈ a.calls ∨ x = step := by
  obtain ⟨ast, acalls, ahalt⟩ := a
  cases ahalt with
  | some h => exact Or.inl hx
  | none =>
      unfold runStep at hx
      dsimp only at hx
      split at hx
      · exact Or.inl hx
      · split at hx <;>
          · dsimp only at hx
            rcases List.mem_append.mp hx with h | h
            · exact Or.inl h
            · exact Or.inr (List.mem_singleton.mp h)

lemma runStep_mem_back (exec : String → Bool) (step : String) (a : StepAcc)
    {x : String} (hx : x ∈ (runStep exec step a).st.completed) :
    x ∈ a.st.completed ∨ x = step := by
  obtain ⟨ast, acalls, ahalt⟩ := a
  cases ahalt with
  | some h => exact Or.inl hx
  | none =>
      unfold runStep at hx
      dsimp only at hx
      split at hx
      · exact Or.inl hx
      · split at hx
        · rcases mem_mark_sub (ast.invalidate_from step) step hx with h | h
          · exact Or.inl (mem_invalidate_sub ast step h)
          · exact Or.inr h
        · exact Or.inl (mem_invalidate_sub _ step hx)

/-- C9: a run with the explicit skip-clone override never invokes the clone
executor, never adds clone to completed-steps (clone is in the final record
only if it already was in the initial one), and when the expected checkout
is absent the run halts fatally with no executor call and no state change. -/
theorem skip_clone_never_records (checkout0 gitAfterClone : Bool)
    (exec : String → Bool) (c0 : List String) (w0 : List (List String)) :
    "clone" ∉ (runPipeline true checkout0 gitAfterClone exec ⟨c0, w0⟩).calls ∧
    ("clone" ∈ (runPipeline true checkout0 gitAfterClone exec ⟨c0, w0⟩).state.completed →
      "clone" ∈ c0) ∧
    (checkout0 = false →
      (runPipeline true checkout0 gitAfterClone exec ⟨c0, w0⟩).halt
          = some .checkoutNotFound ∧
      (runPipeline true checkout0 gitAfterClone exec ⟨c0, w0⟩).calls = [] ∧
      (runPipeline true checkout0 gitAfterClone exec ⟨c0, w0⟩).state = ⟨c0, w0⟩) := by
  have hclone : clonePhase true checkout0 gitAfterClone exec ⟨c0, w0⟩
      = (⟨⟨c0, w0⟩, [], none⟩, checkout0) := rfl
  refine ⟨?_, ?_, ?_⟩
  · intro hmem
    have h1 := runStep_calls_mem exec "domain_substitution" _ hmem
    rcases h1 with h1 | h1
    · have h2 := runStep_calls_mem exec "patches" _ h1
      rcases h2 with h2 | h2
      · have h3 := runStep_calls_mem exec "prune_binaries" _ h2
        rcases h3 with h3 | h3
        · rw [hclone, checkoutGate_calls] at h3
          exact absurd h3 (List.not_mem_nil _)
        · exact absurd h3 (by decide)
      · exact absurd h2 (by decide)
    · exact absurd h1 (by decide)
  · intro hmem
    have h1 := runStep_mem_back exec "domain_substitution" _ hmem
    rcases h1 with h1 | h1
    · have h2 := runStep_mem_back exec "patches" _ h1
      rcases h2 with h2 | h2
      · have h3 := runStep_mem_back exec "prune_binaries" _ h2
        rcases h3 with h3 | h3
        · rw [hclone, checkoutGate_st] at h3
          exact h3
        · exact absurd h3 (by decide)
      · exact absurd h2 (by decide)
    · exact absurd h1 (by decide)
  · intro hco
    subst hco
    exact ⟨rfl, rfl, rfl⟩

/-- Witness for C9 at a concrete run. -/
theorem skip_clone_never_records_witness :
    "clone" ∉ (runPipeline true false true (fun _ => true)
        ⟨["clone"], []⟩).calls ∧
    (runPipeline true false true (fun _ => true) ⟨["clone"], []⟩).halt
        = some .checkoutNotFound := by
  have h := skip_clone_never_records false true (fun _ => true) ["clone"] []
  exact ⟨h.1, (h.2.2 rfl).1⟩

lemma runStep_halted (exec : String → Bool) (step : String) (a : StepAcc)
    {h : Halt} (ha : a.halt = some h) : runStep exec step a = a := by
  obtain ⟨ast, acalls, ahalt⟩ := a
  cases ahalt with
  | some g => rfl
  | none => exact absurd ha (by simp)

lemma runStep_skip (exec : String → Bool) (step : String) (a : StepAcc)
    (ha : a.halt = none) (hc : step ∈ a.st.completed) :
    runStep exec step a = a := by
  obtain ⟨ast, acalls, ahalt⟩ := a
  cases ahalt with
  | some g => rfl
  | none =>
      unfold runStep
      dsimp only
      rw [if_pos ((has_completed_iff ast step).mpr hc)]

lemma runStep_exec_true (exec : String → Bool) (step : String) (a : StepAcc)
    (ha : a.halt = none) (hc : step ∉ a.st.completed) (hx : exec step = true) :
    runStep exec step a
      = ⟨(a.st.invalidate_from step).mark_complete step, a.calls ++ [step], none⟩ := by
  obtain ⟨ast, acalls, ahalt⟩ := a
  cases ahalt with
  | some g => exact absurd ha (by simp)
  | none =>
      unfold runStep
      dsimp only
      rw [if_neg (fun hcc => hc ((has_completed_iff ast step).mp hcc)), if_pos hx]

lemma runStep_exec_false (exec : String → Bool) (step : String) (a : StepAcc)
    (ha : a.halt = none) (hc : step ∉ a.st.completed) (hx : exec step = false) :
    runStep exec step a
      = ⟨a.st.invalidate_from step, a.calls ++ [step], some (.cmdFailed step)⟩ := by
  obtain ⟨ast, acalls, ahalt⟩ := a
  cases ahalt with
  | some g => exact absurd ha (by simp)
  | none =>
      unfold runStep
      dsimp only
      rw [if_neg (fun hcc => hc ((has_completed_iff ast step).mp hcc)),
        if_neg (fun hcc => by rw [hx] at hcc; cases hcc)]

lemma checkoutGate_pass (a : StepAcc) (ha : a.halt = none) :
    checkoutGate true a = a := by
  obtain ⟨ast, acalls, ahalt⟩ := a
  cases ahalt with
  | some g => rfl
  | none =>
      unfold checkoutGate
      dsimp only
      rw [if_pos rfl]

lemma invalidate_from_noop (s : BuildState) {step : String} {k : Nat}
    (hk : stepLookup step = some k)
    (h : ∀ x ∈ s.completed, stepIdxD x (-1) < (k : Int)) :
    s.invalidate_from step = s := by
  rw [invalidate_from_eq s hk]
  rw [if_neg]
  intro hne
  exact hne (congrArg List.length
    (List.filter_eq_self.mpr (fun a ha => decide_eq_true (h a ha))))

lemma mark_complete_written_mono (s : BuildState) (step : String) :
    s.written.length ≤ (s.mark_complete step).written.length := by
  unfold BuildState.mark_complete
  dsimp only
  split
  · exact invalidate_from_written_mono s step
  · have h1 := invalidate_from_written_mono s step
    simp only [BuildState.write, List.length_append, List.length_cons, List.length_nil]
    omega

lemma runStep_wlast (exec : String → Bool) (step : String) (a : StepAcc)
    (h : wlast a.st) : wlast (runStep exec step a).st := by
  obtain ⟨ast, acalls, ahalt⟩ := a
  cases ahalt with
  | some g => exact h
  | none =>
      unfold runStep
      dsimp only
      split
      · exact h
      · split
        · exact wlast_mark_complete _ step (wlast_invalidate_from _ step h)
        · exact wlast_invalidate_from _ step h

lemma runStep_written_nil (exec : String → Bool) (step : String) (a : StepAcc)
    (h : (runStep exec step a).st.written = []) :
    (runStep exec step a).st.completed = a.st.completed ∧ a.st.written = [] := by
  obtain ⟨ast, acalls, ahalt⟩ := a
  cases ahalt with
  | some g => exact ⟨rfl, h⟩
  | none =>
      unfold runStep at h ⊢
      dsimp only at h ⊢
      by_cases hc : ast.has_completed step = true
      · rw [if_pos hc] at h ⊢
        exact ⟨rfl, h⟩
      · rw [if_neg hc] at h ⊢
        by_cases hx : exec step = true
        · rw [if_pos hx] at h ⊢
          dsimp only at h ⊢
          have hm := mark_complete_written_mono (ast.invalidate_from step) step
          have hi := invalidate_from_written_mono ast step
          rw [h] at hm
          simp only [List.length_nil, Nat.le_zero] at hm
          have hiw : (ast.invalidate_from step).written = [] :=
            List.length_eq_zero.mp hm
          rw [hiw] at hi
          simp only [List.length_nil, Nat.le_zero] at hi
          have hw0 : ast.written = [] := List.length_eq_zero.mp hi
          have hmeq : (ast.invalidate_from step).mark_complete step
              = ast.invalidate_from step :=
            mark_complete_of_written_eq _ _ (by rw [h, hiw])
          have hieq : ast.invalidate_from step = ast :=
            invalidate_from_of_written_eq _ _ (by rw [hiw, hw0])
          rw [hmeq, hieq]
          exact ⟨rfl, hw0⟩
        · rw [if_neg hx] at h ⊢
          dsimp only at h ⊢
          have hi := invalidate_from_written_mono ast step
          rw [h] at hi
          simp only [List.length_nil, Nat.le_zero] at hi
          have hw0 : ast.written = [] := List.length_eq_zero.mp hi
          have hieq : ast.invalidate_from step = ast :=
            invalidate_from_of_written_eq _ _ (by rw [h, hw0])
          rw [hieq]
          exact ⟨rfl, hw0⟩

/-- Invariant threaded through a run without the skip override: after the
first k pipeline steps have been processed starting from the freshly loaded
record c0, the run has not halted, the record satisfies the ordering
invariant, contains every pipeline step of index below k and every entry of
c0, contains nothing beyond c0 and the processed steps, has invoked only
processed-step executors, and its persistence log matches the record. -/
def chainInv (c0 : List String) (k : Nat) (a : StepAcc) : Prop :=
  a.halt = none ∧
  orderedInv a.st.completed ∧
  (∀ t ∈ STATEFUL_STEPS, stepIdxD t (-1) < (k : Int) → t ∈ a.st.completed) ∧
  (∀ t ∈ c0, t ∈ a.st.completed) ∧
  (∀ x ∈ a.st.completed,
    x ∈ c0 ∨ (stepKnown x = true ∧ stepIdxD x (-1) < (k : Int))) ∧
  (∀ t ∈ a.calls, stepKnown t = true ∧ stepIdxD t (-1) < (k : Int)) ∧
  wlast a.st ∧
  (a.st.written = [] → a.st.completed = c0)

lemma mem_steps_of_known {t : String} (h : stepKnown t = true) :
    t ∈ STATEFUL_STEPS := by
  obtain ⟨i, hi⟩ := Option.isSome_iff_exists.mp h
  exact mem_of_lookup hi

lemma c0_entry_lt {c0 : List String} {step : String} {k : Nat}
    (hk : stepLookup step = some k)
    (hc0inv : orderedInv c0) (hknown : ∀ x ∈ c0, stepKnown x = true)
    (hstepc0 : step ∉ c0) {t : String} (htc0 : t ∈ c0) :
    stepIdxD t (-1) < (k : Int) := by
  have htSS : t ∈ STATEFUL_STEPS := mem_steps_of_known (hknown t htc0)
  have hstepSS : step ∈ STATEFUL_STEPS := mem_of_lookup hk
  rcases lt_trichotomy (stepIdxD t (-1)) (k : Int) with h | h | h
  · exact h
  · exfalso
    exact hstepc0 (stepIdxD_inj hstepSS htSS ((stepIdxD_of_lookup hk).trans h.symm) ▸ htc0)
  · exfalso
    rw [← stepIdxD_of_lookup hk] at h
    exact hstepc0 (hc0inv t htSS htc0 step hstepSS h)

lemma chainInv_step (exec : String → Bool) {step : String} {k : Nat}
    (hk : stepLookup step = some k) {c0 : List String} {a : StepAcc}
    (hc0inv : orderedInv c0) (hknown : ∀ x ∈ c0, stepKnown x = true)
    (hx : exec step = true) (h : chainInv c0 k a) :
    chainInv c0 (k + 1) (runStep exec step a) := by
  obtain ⟨h1, h2, h3, h4, h5, h6, h7, h8⟩ := h
  have hkc : ((k + 1 : Nat) : Int) = (k : Int) + 1 := by push_cast; omega
  by_cases hc : step ∈ a.st.completed
  · rw [runStep_skip exec step a h1 hc]
    refine ⟨h1, h2, ?_, h4, ?_, ?_, h7, h8⟩
    · intro t htSS hlt
      rw [hkc] at hlt
      rcases lt_succ_cases htSS hk hlt with hl | rfl
      · exact h3 t htSS hl
      · exact hc
    · intro x hxc
      rcases h5 x hxc with hx0 | ⟨hkn, hlt⟩
      · exact Or.inl hx0
      · exact Or.inr ⟨hkn, by rw [hkc]; omega⟩
    · intro t htc
      obtain ⟨hkn, hlt⟩ := h6 t htc
      exact ⟨hkn, by rw [hkc]; omega⟩
  · rw [runStep_exec_true exec step a h1 hc hx]
    have hstepc0 : step ∉ c0 := fun hm => hc (h4 step hm)
    have hstepSS : step ∈ STATEFUL_STEPS := mem_of_lookup hk
    have hc0lt : ∀ t ∈ c0, stepIdxD t (-1) < (k : Int) :=
      fun t htc0 => c0_entry_lt hk hc0inv hknown hstepc0 htc0
    have hpre : ∀ t ∈ STATEFUL_STEPS, stepIdxD t (-1) < (k : Int) →
        t ∈ (a.st.invalidate_from step).completed := fun t htSS hlt =>
      (mem_invalidate_iff a.st hk).mpr ⟨h3 t htSS hlt, hlt⟩
    refine ⟨rfl, ?_, ?_, ?_, ?_, ?_, ?_, ?_⟩
    · exact orderedInv_mark _ hk (orderedInv_invalidate _ _ h2) hpre
    · intro t htSS hlt
      rw [hkc] at hlt
      rcases lt_succ_cases htSS hk hlt with hl | rfl
      · exact (mem_mark_iff _ hk).mpr (Or.inl ⟨hpre t htSS hl, hl⟩)
      · exact (mem_mark_iff _ hk).mpr (Or.inr rfl)
    · intro t htc0
      have hlt := hc0lt t htc0
      exact (mem_mark_iff _ hk).mpr
        (Or.inl ⟨(mem_invalidate_iff a.st hk).mpr ⟨h4 t htc0, hlt⟩, hlt⟩)
    · intro x hxc
      rcases (mem_mark_iff _ hk).mp hxc with ⟨hxi, hlt⟩ | rfl
      · have hxa := ((mem_invalidate_iff a.st hk).mp hxi).1
        rcases h5 x hxa with hx0 | ⟨hkn, _⟩
        · exact Or.inl hx0
        · exact Or.inr ⟨hkn, by rw [hkc]; omega⟩
      · refine Or.inr ⟨known_of_mem_steps hstepSS, ?_⟩
        rw [hkc, stepIdxD_of_lookup hk]
        omega
    · intro t htc
      rcases List.mem_append.mp htc with hm | hm
      · obtain ⟨hkn, hlt⟩ := h6 t hm
        exact ⟨hkn, by rw [hkc]; omega⟩
      · rw [List.mem_singleton.mp hm]
        refine ⟨known_of_mem_steps hstepSS, ?_⟩
        rw [hkc, stepIdxD_of_lookup hk]
        omega
    · exact wlast_mark_complete _ step (wlast_invalidate_from _ step h7)
    · intro hw
      have hm := mark_complete_written_mono (a.st.invalidate_from step) step
      rw [hw] at hm
      simp only [List.length_nil, Nat.le_zero] at hm
      have hiw : (a.st.invalidate_from step).written = [] := List.length_eq_zero.mp hm
      have hi := invalidate_from_written_mono a.st step
      rw [hiw] at hi
      simp only [List.length_nil, Nat.le_zero] at hi
      have hw0 : a.st.written = [] := List.length_eq_zero.mp hi
      have hmeq := mark_complete_of_written_eq (a.st.invalidate_from step) step
        (by rw [hw, hiw])
      have hieq := invalidate_from_of_written_eq a.st step (by rw [hiw, hw0])
      rw [hmeq, hieq]
      exact h8 hw0

instance wlast.instDecidable (s : BuildState) : Decidable (wlast s) := by
  unfold wlast
  infer_instance

instance chainInv.instDecidable (c0 : List String) (k : Nat) (a : StepAcc) :
    Decidable (chainInv c0 k a) := by
  unfold chainInv
  infer_instance

lemma c0_nil_of_clone_not_mem {c0 : List String}
    (hc0inv : orderedInv c0) (hknown : ∀ x ∈ c0, stepKnown x = true)
    (hc : "clone" ∉ c0) : c0 = [] := by
  rcases List.eq_nil_or_concat c0 with h | _
  · exact h
  · rw [List.eq_nil_iff_forall_not_mem]
    intro x hx
    have hlt := c0_entry_lt (show stepLookup "clone" = some 0 from rfl)
      hc0inv hknown hc hx
    obtain ⟨i, hi⟩ := Option.isSome_iff_exists.mp (hknown x hx)
    rw [stepIdxD_of_lookup hi] at hlt
    omega

lemma clonePhase_chainInv (gitAfterClone : Bool) (exec : String → Bool)
    (c0 : List String)
    (hc0inv : orderedInv c0) (hknown : ∀ x ∈ c0, stepKnown x = true)
    (hcl : "clone" ∉ c0 → exec "clone" = true ∧ gitAfterClone = true) :
    chainInv c0 1 (clonePhase false true gitAfterClone exec ⟨c0, []⟩).1 ∧
    (clonePhase false true gitAfterClone exec ⟨c0, []⟩).2 = true := by
  unfold clonePhase
  rw [if_neg (by simp : ¬ false = true)]
  by_cases hc : "clone" ∈ c0
  · have hhc := (has_completed_iff (⟨c0, []⟩ : BuildState) "clone").mpr hc
    rw [hhc, if_neg (by decide : ¬ ((!true || !true) = true))]
    refine ⟨⟨rfl, hc0inv, ?_, fun t ht => ht, fun x hx => Or.inl hx, ?_,
      Or.inl rfl, fun _ => rfl⟩, rfl⟩
    · intro t htSS hlt
      have hteq : t = "clone" := by
        simp only [STATEFUL_STEPS, List.mem_cons, List.not_mem_nil, or_false] at htSS
        rcases htSS with rfl | rfl | rfl | rfl <;> revert hlt <;> decide
      exact hteq ▸ hc
    · intro t htc
      exact absurd htc (List.not_mem_nil t)
  · obtain ⟨hx, hg⟩ := hcl hc
    subst hg
    have hc0nil := c0_nil_of_clone_not_mem hc0inv hknown hc
    subst hc0nil
    rw [if_pos (by decide : ((!(⟨([] : List String), ([] : List (List String))⟩ :
        BuildState).has_completed "clone" || !true) = true)), if_pos hx,
      if_pos (rfl : true = true)]
    exact ⟨by decide, rfl⟩

lemma runStep_calls_extend (exec : String → Bool) (step : String) (a : StepAcc) :
    ∃ l, (runStep exec step a).calls = a.calls ++ l := by
  obtain ⟨ast, acalls, ahalt⟩ := a
  cases ahalt with
  | some g => exact ⟨[], (List.append_nil _).symm⟩
  | none =>
      unfold runStep
      dsimp only
      split
      · exact ⟨[], (List.append_nil _).symm⟩
      · split
        · exact ⟨[step], rfl⟩
        · exact ⟨[step], rfl⟩

lemma head?_append_left {α : Type} (l l2 : List α) (h : l ≠ []) :
    (l ++ l2).head? = l.head? := by
  cases l with
  | nil => exact absurd rfl h
  | cons x xs => rfl

lemma runStep_exec_calls (exec : String → Bool) (step : String) (a : StepAcc)
    (ha : a.halt = none) (hc : step ∉ a.st.completed) :
    (runStep exec step a).calls = a.calls ++ [step] := by
  by_cases hx : exec step = true
  · rw [runStep_exec_true exec step a ha hc hx]
  · rw [runStep_exec_false exec step a ha hc (Bool.eq_false_iff.mpr hx)]

lemma clonePhase_skip_completed (g2 : Bool) (exec2 : String → Bool)
    (st0 : BuildState) (hc : "clone" ∈ st0.completed) :
    clonePhase false true g2 exec2 st0 = (⟨st0, [], none⟩, true) := by
  unfold clonePhase
  rw [if_neg (by simp : ¬ false = true),
    (has_completed_iff st0 "clone").mpr hc,
    if_neg (by decide : ¬ ((!true || !true) = true))]

lemma clonePhase_calls_not_completed (g2 : Bool) (exec2 : String → Bool)
    (st0 : BuildState) (hc : "clone" ∉ st0.completed) :
    (clonePhase false true g2 exec2 st0).1.calls = ["clone"] := by
  have hhc : st0.has_completed "clone" = false :=
    Bool.eq_false_iff.mpr (fun h => hc ((has_completed_iff st0 "clone").mp h))
  unfold clonePhase
  rw [if_neg (by simp : ¬ false = true), hhc,
    if_pos (by decide : (!false || !true) = true)]
  by_cases hx : exec2 "clone" = true
  · rw [if_pos hx]
    cases g2 with
    | true => rfl
    | false => rfl
  · rw [if_neg hx]

lemma pipeline_calls_shape (g2 : Bool) (exec2 : String → Bool) (st0 : BuildState) :
    ∃ l, (runPipeline false true g2 exec2 st0).calls
      = (clonePhase false true g2 exec2 st0).1.calls ++ l := by
  obtain ⟨l1, e1⟩ := runStep_calls_extend exec2 "prune_binaries"
    (checkoutGate (clonePhase false true g2 exec2 st0).2
      (clonePhase false true g2 exec2 st0).1)
  obtain ⟨l2, e2⟩ := runStep_calls_extend exec2 "patches"
    (runStep exec2 "prune_binaries"
      (checkoutGate (clonePhase false true g2 exec2 st0).2
        (clonePhase false true g2 exec2 st0).1))
  obtain ⟨l3, e3⟩ := runStep_calls_extend exec2 "domain_substitution"
    (runStep exec2 "patches"
      (runStep exec2 "prune_binaries"
        (checkoutGate (clonePhase false true g2 exec2 st0).2
          (clonePhase false true g2 exec2 st0).1)))
  refine ⟨l1 ++ l2 ++ l3, ?_⟩
  show (runStep exec2 "domain_substitution"
      (runStep exec2 "patches"
        (runStep exec2 "prune_binaries"
          (checkoutGate (clonePhase false true g2 exec2 st0).2
            (clonePhase false true g2 exec2 st0).1)))).calls = _
  rw [e3, e2, e1, checkoutGate_calls]
  simp [List.append_assoc]

lemma first_call {cc : List String} {s : String} {ks : Nat}
    (hks : stepLookup s = some ks) (hnot : s ∉ cc)
    (hall : ∀ t ∈ STATEFUL_STEPS, stepIdxD t (-1) < (ks : Int) → t ∈ cc)
    (g2 : Bool) (exec2 : String → Bool) :
    (runPipeline false true g2 exec2 ⟨cc, []⟩).calls.head? = some s := by
  have hsSS := mem_of_lookup hks
  simp only [STATEFUL_STEPS, List.mem_cons, List.not_mem_nil, or_false] at hsSS
  rcases hsSS with rfl | rfl | rfl | rfl
  · obtain ⟨l, hl⟩ := pipeline_calls_shape g2 exec2 ⟨cc, []⟩
    rw [hl, clonePhase_calls_not_completed g2 exec2 ⟨cc, []⟩ hnot]
    rfl
  · have hks1 : ks = 1 := by
      have := hks.symm.trans (rfl : stepLookup "prune_binaries" = some 1)
      injection this
    subst hks1
    have hcl : "clone" ∈ cc := hall "clone" (by decide) (by decide)
    have hcp := clonePhase_skip_completed g2 exec2 ⟨cc, []⟩ hcl
    have hg : checkoutGate (clonePhase false true g2 exec2 ⟨cc, []⟩).2
        (clonePhase false true g2 exec2 ⟨cc, []⟩).1 = ⟨⟨cc, []⟩, [], none⟩ := by
      rw [hcp]
      exact checkoutGate_pass _ rfl
    show (runStep exec2 "domain_substitution"
        (runStep exec2 "patches"
          (runStep exec2 "prune_binaries"
            (checkoutGate (clonePhase false true g2 exec2 ⟨cc, []⟩).2
              (clonePhase false true g2 exec2 ⟨cc, []⟩).1)))).calls.head?
        = some "prune_binaries"
    rw [hg]
    have e1 : (runStep exec2 "prune_binaries"
        (⟨⟨cc, []⟩, [], none⟩ : StepAcc)).calls = [] ++ ["prune_binaries"] :=
      runStep_exec_calls exec2 "prune_binaries" _ rfl hnot
    obtain ⟨l2, e2⟩ := runStep_calls_extend exec2 "patches"
      (runStep exec2 "prune_binaries" ⟨⟨cc, []⟩, [], none⟩)
    obtain ⟨l3, e3⟩ := runStep_calls_extend exec2 "domain_substitution"
      (runStep exec2 "patches" (runStep exec2 "prune_binaries" ⟨⟨cc, []⟩, [], none⟩))
    rw [e3, e2, e1]
    rfl
  · have hks2 : ks = 2 := by
      have := hks.symm.trans (rfl : stepLookup "patches" = some 2)
      injection this
    subst hks2
    have hcl : "clone" ∈ cc := hall "clone" (by decide) (by decide)
    have hpr : "prune_binaries" ∈ cc := hall "prune_binaries" (by decide) (by decide)
    have hcp := clonePhase_skip_completed g2 exec2 ⟨cc, []⟩ hcl
    have hg : checkoutGate (clonePhase false true g2 exec2 ⟨cc, []⟩).2
        (clonePhase false true g2 exec2 ⟨cc, []⟩).1 = ⟨⟨cc, []⟩, [], none⟩ := by
      rw [hcp]
      exact checkoutGate_pass _ rfl
    show (runStep exec2 "domain_substitution"
        (runStep exec2 "patches"
          (runStep exec2 "prune_binaries"
            (checkoutGate (clonePhase false true g2 exec2 ⟨cc, []⟩).2
              (clonePhase false true g2 exec2 ⟨cc, []⟩).1)))).calls.head?
        = some "patches"
    rw [hg, runStep_skip exec2 "prune_binaries" _ rfl hpr]
    have e1 : (runStep exec2 "patches"
        (⟨⟨cc, []⟩, [], none⟩ : StepAcc)).calls = [] ++ ["patches"] :=
      runStep_exec_calls exec2 "patches" _ rfl hnot
    obtain ⟨l3, e3⟩ := runStep_calls_extend exec2 "domain_substitution"
      (runStep exec2 "patches" ⟨⟨cc, []⟩, [], none⟩)
    rw [e3, e1]
    rfl
  · have hks3 : ks = 3 := by
      have := hks.symm.trans (rfl : stepLookup "domain_substitution" = some 3)
      injection this
    subst hks3
    have hcl : "clone" ∈ cc := hall "clone" (by decide) (by decide)
    have hpr : "prune_binaries" ∈ cc := hall "prune_binaries" (by decide) (by decide)
    have hpa : "patches" ∈ cc := hall "patches" (by decide) (by decide)
    have hcp := clonePhase_skip_completed g2 exec2 ⟨cc, []⟩ hcl
    have hg : checkoutGate (clonePhase false true g2 exec2 ⟨cc, []⟩).2
        (clonePhase false true g2 exec2 ⟨cc, []⟩).1 = ⟨⟨cc, []⟩, [], none⟩ := by
      rw [hcp]
      exact checkoutGate_pass _ rfl
    show (runStep exec2 "domain_substitution"
        (runStep exec2 "patches"
          (runStep exec2 "prune_binaries"
            (checkoutGate (clonePhase false true g2 exec2 ⟨cc, []⟩).2
              (clonePhase false true g2 exec2 ⟨cc, []⟩).1)))).calls.head?
        = some "domain_substitution"
    rw [hg, runStep_skip exec2 "prune_binaries" _ rfl hpr,
      runStep_skip exec2 "patches" _ rfl hpa]
    have e1 : (runStep exec2 "domain_substitution"
        (⟨⟨cc, []⟩, [], none⟩ : StepAcc)).calls = [] ++ ["domain_substitution"] :=
      runStep_exec_calls exec2 "domain_substitution" _ rfl hnot
    rw [e1]
    rfl

lemma chainInv_s_not_mem {c0 : List String} {s : String} {ks : Nat} {A : StepAcc}
    (hks : stepLookup s = some ks) (h : chainInv c0 ks A) (hnot : s ∉ c0) :
    s ∉ A.st.completed := by
  intro hm
  rcases h.2.2.2.2.1 s hm with hm0 | ⟨_, hlt⟩
  · exact hnot hm0
  · rw [stepIdxD_of_lookup hks] at hlt
    omega

lemma chainInv_fail (exec : String → Bool) {s : String} {ks : Nat}
    (hks : stepLookup s = some ks) {c0 : List String} {a : StepAcc}
    (hc0inv : orderedInv c0) (hknown : ∀ x ∈ c0, stepKnown x = true)
    (hnot : s ∉ c0) (hx : exec s = false) (h : chainInv c0 ks a) :
    runStep exec s a = ⟨a.st, a.calls ++ [s], some (.cmdFailed s)⟩ := by
  have hsa : s ∉ a.st.completed := chainInv_s_not_mem hks h hnot
  have hall : ∀ x ∈ a.st.completed, stepIdxD x (-1) < (ks : Int) := by
    intro x hm
    rcases h.2.2.2.2.1 x hm with hm0 | ⟨_, hlt⟩
    · exact c0_entry_lt hks hc0inv hknown hnot hm0
    · exact hlt
  rw [runStep_exec_false exec s a h.1 hsa hx, invalidate_from_noop a.st hks hall]

lemma tailSteps_fail (exec : String → Bool) {c0 : List String} {A1 : StepAcc}
    (hc0inv : orderedInv c0) (hknown : ∀ x ∈ c0, stepKnown x = true)
    {s : String} {ks : Nat} (hks : stepLookup s = some ks)
    (hns : s ≠ "clone") (hnot : s ∉ c0)
    (hprev : ∀ t ∈ STATEFUL_STEPS, stepIdxD t (-1) < (ks : Int) → exec t = true)
    (hfail : exec s = false)
    (h1 : chainInv c0 1 A1) :
    ∃ A : StepAcc, chainInv c0 ks A ∧
      runStep exec "domain_substitution" (runStep exec "patches"
        (runStep exec "prune_binaries" A1))
        = ⟨A.st, A.calls ++ [s], some (.cmdFailed s)⟩ := by
  have hsSS := mem_of_lookup hks
  simp only [STATEFUL_STEPS, List.mem_cons, List.not_mem_nil, or_false] at hsSS
  rcases hsSS with rfl | rfl | rfl | rfl
  · exact absurd rfl hns
  · have hks1 : ks = 1 := by
      have := hks.symm.trans (rfl : stepLookup "prune_binaries" = some 1)
      injection this
    subst hks1
    refine ⟨A1, h1, ?_⟩
    have e1 := chainInv_fail exec hks hc0inv hknown hnot hfail h1
    rw [e1, runStep_halted exec "patches" _ rfl, runStep_halted exec "domain_substitution" _ rfl]
  · have hks2 : ks = 2 := by
      have := hks.symm.trans (rfl : stepLookup "patches" = some 2)
      injection this
    subst hks2
    have h2 := chainInv_step exec (rfl : stepLookup "prune_binaries" = some 1)
      hc0inv hknown (hprev "prune_binaries" (by decide) (by decide)) h1
    refine ⟨runStep exec "prune_binaries" A1, h2, ?_⟩
    have e1 := chainInv_fail exec hks hc0inv hknown hnot hfail h2
    rw [e1, runStep_halted exec "domain_substitution" _ rfl]
  · have hks3 : ks = 3 := by
      have := hks.symm.trans (rfl : stepLookup "domain_substitution" = some 3)
      injection this
    subst hks3
    have h2 := chainInv_step exec (rfl : stepLookup "prune_binaries" = some 1)
      hc0inv hknown (hprev "prune_binaries" (by decide) (by decide)) h1
    have h3 := chainInv_step exec (rfl : stepLookup "patches" = some 2)
      hc0inv hknown (hprev "patches" (by decide) (by decide)) h2
    refine ⟨runStep exec "patches" (runStep exec "prune_binaries" A1), h3, ?_⟩
    exact chainInv_fail exec hks hc0inv hknown hnot hfail h3

/-- C4: when the executor of pipeline step s reports failure (all earlier
executors succeeding, checkout present, no skip override), the run halts with
that failure: s is the last executor call and no later-indexed step is
invoked, s is not recorded, every previously recorded step and every earlier
pipeline step stays in the record and in its persisted snapshot, and a
re-invocation on the resulting record invokes s first. -/
theorem step_failure_halts_pipeline (exec : String → Bool)
    (c0 : List String) (s : String) (ks : Nat)
    (hks : stepLookup s = some ks)
    (hinv : orderedInv c0)
    (hknown : ∀ x ∈ c0, stepKnown x = true)
    (hnot : s ∉ c0)
    (hprev : ∀ t ∈ STATEFUL_STEPS, stepIdxD t (-1) < (ks : Int) → exec t = true)
    (hfail : exec s = false) :
    (runPipeline false true true exec ⟨c0, []⟩).halt = some (.cmdFailed s) ∧
    (runPipeline false true true exec ⟨c0, []⟩).calls.getLast? = some s ∧
    (∀ t ∈ (runPipeline false true true exec ⟨c0, []⟩).calls,
      stepIdxD t (-1) ≤ (ks : Int)) ∧
    s ∉ (runPipeline false true true exec ⟨c0, []⟩).state.completed ∧
    (∀ t ∈ c0, t ∈ (runPipeline false true true exec ⟨c0, []⟩).state.completed) ∧
    (∀ t ∈ STATEFUL_STEPS, stepIdxD t (-1) < (ks : Int) →
      t ∈ (runPipeline false true true exec ⟨c0, []⟩).state.completed) ∧
    wlast (runPipeline false true true exec ⟨c0, []⟩).state ∧
    ((runPipeline false true true exec ⟨c0, []⟩).state.written = [] →
      (runPipeline false true true exec ⟨c0, []⟩).state.completed = c0) ∧
    (∀ (g2 : Bool) (exec2 : String → Bool),
      (runPipeline false true g2 exec2
        ⟨(runPipeline false true true exec ⟨c0, []⟩).state.completed, []⟩).calls.head?
        = some s) := by
  by_cases hclone : s = "clone"
  · subst hclone
    have hks0 : ks = 0 := by
      have := hks.symm.trans (rfl : stepLookup "clone" = some 0)
      injection this
    subst hks0
    have hc0nil := c0_nil_of_clone_not_mem hinv hknown hnot
    subst hc0nil
    have hcp : clonePhase false true true exec ⟨[], []⟩
        = (⟨⟨[], []⟩, ["clone"], some (.cmdFailed "clone")⟩, true) := by
      unfold clonePhase
      rw [if_neg (by simp : ¬ false = true),
        if_pos (by decide :
          ((!(⟨[], []⟩ : BuildState).has_completed "clone" || !true) = true)),
        if_neg (fun hcc => by rw [hfail] at hcc; cases hcc)]
      rfl
    have hrun : runPipeline false true true exec ⟨[], []⟩
        = ⟨⟨[], []⟩, ["clone"], some (.cmdFailed "clone"), true⟩ := by
      unfold runPipeline
      rw [hcp]
      rfl
    rw [hrun]
    refine ⟨rfl, rfl, ?_, ?_, ?_, ?_, Or.inl rfl, fun _ => rfl, ?_⟩
    · intro t ht
      rw [List.mem_singleton.mp ht]
      decide
    · decide
    · intro t ht
      exact absurd ht (List.not_mem_nil t)
    · intro t htSS hlt
      exfalso
      simp only [STATEFUL_STEPS, List.mem_cons, List.not_mem_nil, or_false] at htSS
      rcases htSS with rfl | rfl | rfl | rfl <;> revert hlt <;> decide
    · intro g2 exec2
      exact first_call hks (by decide)
        (fun t htSS hlt => by
          exfalso
          simp only [STATEFUL_STEPS, List.mem_cons, List.not_mem_nil, or_false] at htSS
          rcases htSS with rfl | rfl | rfl | rfl <;> revert hlt <;> decide)
        g2 exec2
  · have h0lt : stepIdxD "clone" (-1) < (ks : Int) := by
      rcases Nat.eq_zero_or_pos ks with hz | hp
      · exfalso
        subst hz
        exact hclone (stepIdxD_inj (mem_of_lookup hks) (by decide)
          (by rw [stepIdxD_of_lookup hks]; decide))
      · have : stepIdxD "clone" (-1) = (0 : Int) := rfl
        omega
    have hstart := clonePhase_chainInv true exec c0 hinv hknown
      (fun _ => ⟨hprev "clone" (by decide) h0lt, rfl⟩)
    have hg : checkoutGate (clonePhase false true true exec ⟨c0, []⟩).2
        (clonePhase false true true exec ⟨c0, []⟩).1
        = (clonePhase false true true exec ⟨c0, []⟩).1 := by
      rw [hstart.2]
      exact checkoutGate_pass _ hstart.1.1
    have hA1 : chainInv c0 1 (checkoutGate (clonePhase false true true exec ⟨c0, []⟩).2
        (clonePhase false true true exec ⟨c0, []⟩).1) := by
      rw [hg]
      exact hstart.1
    obtain ⟨A, hA, hEq⟩ := tailSteps_fail exec hinv hknown hks hclone hnot hprev hfail hA1
    have hrunstate : (runPipeline false true true exec ⟨c0, []⟩).state = A.st := by
      show (runStep exec "domain_substitution" (runStep exec "patches"
        (runStep exec "prune_binaries"
          (checkoutGate (clonePhase false true true exec ⟨c0, []⟩).2
            (clonePhase false true true exec ⟨c0, []⟩).1)))).st = A.st
      rw [hEq]
    have hruncalls : (runPipeline false true true exec ⟨c0, []⟩).calls
        = A.calls ++ [s] := by
      show (runStep exec "domain_substitution" (runStep exec "patches"
        (runStep exec "prune_binaries"
          (checkoutGate (clonePhase false true true exec ⟨c0, []⟩).2
            (clonePhase false true true exec ⟨c0, []⟩).1)))).calls = A.calls ++ [s]
      rw [hEq]
    have hrunhalt : (runPipeline false true true exec ⟨c0, []⟩).halt
        = some (.cmdFailed s) := by
      show (runStep exec "domain_substitution" (runStep exec "patches"
        (runStep exec "prune_binaries"
          (checkoutGate (clonePhase false true true exec ⟨c0, []⟩).2
            (clonePhase false true true exec ⟨c0, []⟩).1)))).halt = some (.cmdFailed s)
      rw [hEq]
    obtain ⟨hAhalt, hAord, hA3, hA4, hA5, hA6, hA7, hA8⟩ := hA
    refine ⟨hrunhalt, ?_, ?_, ?_, ?_, ?_, ?_, ?_, ?_⟩
    · rw [hruncalls]
      exact List.getLast?_concat _
    · rw [hruncalls]
      intro t ht
      rcases List.mem_append.mp ht with hm | hm
      · exact le_of_lt (hA6 t hm).2
      · rw [List.mem_singleton.mp hm, stepIdxD_of_lookup hks]
    · rw [hrunstate]
      exact chainInv_s_not_mem hks ⟨hAhalt, hAord, hA3, hA4, hA5, hA6, hA7, hA8⟩ hnot
    · rw [hrunstate]
      exact hA4
    · rw [hrunstate]
      exact hA3
    · rw [hrunstate]
      exact hA7
    · rw [hrunstate]
      exact hA8
    · intro g2 exec2
      rw [hrunstate]
      exact first_call hks
        (chainInv_s_not_mem hks ⟨hAhalt, hAord, hA3, hA4, hA5, hA6, hA7, hA8⟩ hnot)
        hA3 g2 exec2

/-- Witness for C4: record [clone, prune_binaries], the patches executor
fails; the run halts at patches with patches as the last call. -/
theorem step_failure_halts_witness :
    (runPipeline false true true (fun t => !(t == "patches"))
        ⟨["clone", "prune_binaries"], []⟩).halt = some (.cmdFailed "patches") ∧
    (runPipeline false true true (fun t => !(t == "patches"))
        ⟨["clone", "prune_binaries"], []⟩).calls.getLast? = some "patches" := by
  have h := step_failure_halts_pipeline (fun t => !(t == "patches"))
    ["clone", "prune_binaries"] "patches" 2 rfl (by decide) (by decide) (by decide)
    (by decide) (by decide)
  exact ⟨h.1, h.2.1⟩

lemma metaLookup_of_mem {m : List (String × String)}
    (hnodup : (m.map Prod.fst).Nodup) {p : String × String} (hp : p ∈ m) :
    metaLookup m p.1 = some p.2 := by
  induction m with
  | nil => cases hp
  | cons q rest ih =>
      rcases List.mem_cons.mp hp with rfl | hp'
      · simp [metaLookup, List.find?_cons]
      · have hq : (q.1 == p.1) = false := by
          rw [beq_eq_false_iff_ne]
          intro he
          have hmem : p.1 ∈ rest.map Prod.fst := List.mem_map_of_mem Prod.fst hp'
          rw [List.map_cons, List.nodup_cons] at hnodup
          exact hnodup.1 (he ▸ hmem)
        have hrest : (rest.map Prod.fst).Nodup := by
          rw [List.map_cons, List.nodup_cons] at hnodup
          exact hnodup.2
        simp only [metaLookup, List.find?_cons, hq]
        exact ih hrest hp'

lemma objLookup_metaToJson (m : List (String × String)) (k : String) :
    objLookup (metaToJson m) k = (metaLookup m k).map Json.str := by
  induction m with
  | nil => rfl
  | cons q rest ih =>
      simp only [metaToJson, List.map_cons, objLookup, metaLookup,
        List.find?_cons] at ih ⊢
      by_cases hq : (q.1 == k) = true
      · rw [hq]
        rfl
      · rw [Bool.eq_false_iff.mpr hq]
        exact ih

lemma pyDictEq_self {m : List (String × String)}
    (hnodup : (m.map Prod.fst).Nodup) : pyDictEq (metaToJson m) m = true := by
  unfold pyDictEq
  rw [Bool.and_eq_true]
  constructor
  · rw [List.all_eq_true]
    intro p hp
    rw [objLookup_metaToJson, metaLookup_of_mem hnodup hp]
    simp
  · rw [List.all_eq_true]
    intro p hp
    obtain ⟨q, hq, hqe⟩ := List.mem_map.mp hp
    rw [Option.isSome_iff_exists]
    have : metaLookup m q.1 = some q.2 := metaLookup_of_mem hnodup hq
    rw [show p.1 = q.1 from by rw [← hqe]]
    exact ⟨q.2, this⟩

lemma filterKnown_map_str {c : List String} (hc : ∀ x ∈ c, stepKnown x = true) :
    filterKnown (c.map Json.str) = .ok c := by
  induction c with
  | nil => rfl
  | cons x rest ih =>
      simp only [List.map_cons, filterKnown]
      rw [ih (fun y hy => hc y (List.mem_cons_of_mem x hy))]
      simp only [Except.map, hc x (List.mem_cons_self x rest), if_true]

lemma load_roundTrip (meta : List (String × String)) (c : List String)
    (hnodup : (meta.map Prod.fst).Nodup) (hc : ∀ x ∈ c, stepKnown x = true) :
    loadState meta (.json (stateJson meta c))
      = .ok (c, .json (stateJson meta c)) := by
  have hv : versionMatches (objLookup
      [("version", Json.num STATE_VERSION),
       ("metadata", Json.obj (metaToJson meta)),
       ("completed_steps", Json.arr (c.map Json.str))] "version") = true := rfl
  have hm : metaMatches (objLookup
      [("version", Json.num STATE_VERSION),
       ("metadata", Json.obj (metaToJson meta)),
       ("completed_steps", Json.arr (c.map Json.str))] "metadata") meta = true := by
    show metaEqJson (Json.obj (metaToJson meta)) meta = true
    show pyDictEq (metaToJson meta) meta = true
    exact pyDictEq_self hnodup
  show loadState meta (.json (.obj
      [("version", Json.num STATE_VERSION),
       ("metadata", Json.obj (metaToJson meta)),
       ("completed_steps", Json.arr (c.map Json.str))])) = _
  unfold loadState
  dsimp only
  rw [hv, hm]
  rw [if_neg (by decide : ¬ ((!true || !true) = true))]
  rw [show objLookup
      [("version", Json.num STATE_VERSION),
       ("metadata", Json.obj (metaToJson meta)),
       ("completed_steps", Json.arr (c.map Json.str))] "completed_steps"
      = some (Json.arr (c.map Json.str)) from rfl]
  dsimp only
  rw [filterKnown_map_str hc]
  rfl

lemma pipeline_all_completed (g2 : Bool) (exec2 : String → Bool) (cc : List String)
    (h1 : "clone" ∈ cc) (h2 : "prune_binaries" ∈ cc) (h3 : "patches" ∈ cc)
    (h4 : "domain_substitution" ∈ cc) :
    (runPipeline false true g2 exec2 ⟨cc, []⟩).calls = [] ∧
    (runPipeline false true g2 exec2 ⟨cc, []⟩).halt = none ∧
    (runPipeline false true g2 exec2 ⟨cc, []⟩).state = ⟨cc, []⟩ := by
  have hcp := clonePhase_skip_completed g2 exec2 ⟨cc, []⟩ h1
  have hg : checkoutGate (clonePhase false true g2 exec2 ⟨cc, []⟩).2
      (clonePhase false true g2 exec2 ⟨cc, []⟩).1 = ⟨⟨cc, []⟩, [], none⟩ := by
    rw [hcp]
    exact checkoutGate_pass _ rfl
  have hchain : runStep exec2 "domain_substitution" (runStep exec2 "patches"
      (runStep exec2 "prune_binaries"
        (checkoutGate (clonePhase false true g2 exec2 ⟨cc, []⟩).2
          (clonePhase false true g2 exec2 ⟨cc, []⟩).1)))
      = ⟨⟨cc, []⟩, [], none⟩ := by
    rw [hg, runStep_skip exec2 "prune_binaries" _ rfl h2,
      runStep_skip exec2 "patches" _ rfl h3,
      runStep_skip exec2 "domain_substitution" _ rfl h4]
  refine ⟨?_, ?_, ?_⟩
  · show (runStep exec2 "domain_substitution" (runStep exec2 "patches"
      (runStep exec2 "prune_binaries"
        (checkoutGate (clonePhase false true g2 exec2 ⟨cc, []⟩).2
          (clonePhase false true g2 exec2 ⟨cc, []⟩).1)))).calls = []
    rw [hchain]
  · show (runStep exec2 "domain_substitution" (runStep exec2 "patches"
      (runStep exec2 "prune_binaries"
        (checkoutGate (clonePhase false true g2 exec2 ⟨cc, []⟩).2
          (clonePhase false true g2 exec2 ⟨cc, []⟩).1)))).halt = none
    rw [hchain]
  · show (runStep exec2 "domain_substitution" (runStep exec2 "patches"
      (runStep exec2 "prune_binaries"
        (checkoutGate (clonePhase false true g2 exec2 ⟨cc, []⟩).2
          (clonePhase false true g2 exec2 ⟨cc, []⟩).1)))).st = ⟨cc, []⟩
    rw [hchain]

/-- C5: an all-success run without skip flags from a loaded record completes
without halting with the checkout present, its persisted state file loads
back to exactly its final record under the same configuration, and a second
run on that record performs zero stateful step executor calls and does not
halt. -/
theorem pipeline_idempotent (exec : String → Bool) (c0 : List String)
    (meta : List (String × String))
    (hexec : ∀ t, exec t = true)
    (hknown : ∀ x ∈ c0, stepKnown x = true)
    (hinv : orderedInv c0)
    (hnodup : (meta.map Prod.fst).Nodup) :
    (runPipeline false true true exec ⟨c0, []⟩).halt = none ∧
    (runPipeline false true true exec ⟨c0, []⟩).checkout = true ∧
    loadedSteps meta (fileAfter (.json (stateJson meta c0)) meta
        (runPipeline false true true exec ⟨c0, []⟩).state)
      = some (runPipeline false true true exec ⟨c0, []⟩).state.completed ∧
    (∀ exec2 : String → Bool,
      (runPipeline false true true exec2
        ⟨(runPipeline false true true exec ⟨c0, []⟩).state.completed, []⟩).calls = []
      ∧ (runPipeline false true true exec2
        ⟨(runPipeline false true true exec ⟨c0, []⟩).state.completed, []⟩).halt
          = none) := by
  have hstart := clonePhase_chainInv true exec c0 hinv hknown
    (fun _ => ⟨hexec "clone", rfl⟩)
  have hg : checkoutGate (clonePhase false true true exec ⟨c0, []⟩).2
      (clonePhase false true true exec ⟨c0, []⟩).1
      = (clonePhase false true true exec ⟨c0, []⟩).1 := by
    rw [hstart.2]
    exact checkoutGate_pass _ hstart.1.1
  have hA1 : chainInv c0 1 (checkoutGate (clonePhase false true true exec ⟨c0, []⟩).2
      (clonePhase false true true exec ⟨c0, []⟩).1) := by
    rw [hg]
    exact hstart.1
  have hA2 := chainInv_step exec (rfl : stepLookup "prune_binaries" = some 1)
    hinv hknown (hexec "prune_binaries") hA1
  have hA3 := chainInv_step exec (rfl : stepLookup "patches" = some 2)
    hinv hknown (hexec "patches") hA2
  have hA4 := chainInv_step exec (rfl : stepLookup "domain_substitution" = some 3)
    hinv hknown (hexec "domain_substitution") hA3
  obtain ⟨hB1, hBord, hB3, hB4, hB5, hB6, hB7, hB8⟩ := hA4
  have hstate : (runPipeline false true true exec ⟨c0, []⟩).state
      = (runStep exec "domain_substitution" (runStep exec "patches"
        (runStep exec "prune_binaries"
          (checkoutGate (clonePhase false true true exec ⟨c0, []⟩).2
            (clonePhase false true true exec ⟨c0, []⟩).1)))).st := rfl
  have hknownF : ∀ x ∈ (runPipeline false true true exec ⟨c0, []⟩).state.completed,
      stepKnown x = true := by
    rw [hstate]
    intro x hx
    rcases hB5 x hx with hx0 | ⟨hkn, _⟩
    · exact hknown x hx0
    · exact hkn
  have hmem : ∀ t ∈ STATEFUL_STEPS,
      t ∈ (runPipeline false true true exec ⟨c0, []⟩).state.completed := by
    rw [hstate]
    intro t htSS
    refine hB3 t htSS ?_
    simp only [STATEFUL_STEPS, List.mem_cons, List.not_mem_nil, or_false] at htSS
    rcases htSS with rfl | rfl | rfl | rfl <;> decide
  refine ⟨hB1, hstart.2, ?_, ?_⟩
  · rw [hstate]
    rcases hB7 with hw | hw
    · have hc0eq := hB8 hw
      unfold fileAfter
      rw [hw, List.getLast?_nil]
      unfold loadedSteps
      rw [load_roundTrip meta c0 hnodup hknown, hc0eq]
    · unfold fileAfter
      rw [hw]
      unfold loadedSteps
      rw [load_roundTrip meta _ hnodup (by rw [hstate] at hknownF; exact hknownF)]
  · intro exec2
    have hall := pipeline_all_completed true exec2
      (runPipeline false true true exec ⟨c0, []⟩).state.completed
      (hmem "clone" (by decide)) (hmem "prune_binaries" (by decide))
      (hmem "patches" (by decide)) (hmem "domain_substitution" (by decide))
    exact ⟨hall.1, hall.2.1⟩

/-- Witness for C5: a first run from the empty record completes all steps and
the second run performs no executor calls. -/
theorem pipeline_idempotent_witness :
    (runPipeline false true true (fun _ => true)
      ⟨(runPipeline false true true (fun _ => true) ⟨[], []⟩).state.completed,
        []⟩).calls = [] := by
  have h := pipeline_idempotent (fun _ => true) [] demoMeta (fun _ => rfl)
    (by decide) (by decide) (by decide)
  exact (h.2.2.2 (fun _ => true)).1
